import Mathlib

/-!
Shallow embedding of the document-ledger core in `blockchain.py`
(classes `Block` and `DocumentBlockchain`).

Digests are computed by a faithful executable SHA-256 (FIPS 180-4) over the
UTF-8 bytes of the block's canonical JSON serialization, exactly as
`hashlib.sha256(json.dumps({...}, sort_keys=True).encode()).hexdigest()`
does in the source.  Machine integers do not appear in the source (Python
ints are unbounded); the 32-bit arithmetic inside SHA-256 is modelled on
`Nat` with explicit reduction modulo 2^32.
-/

namespace DocuChain

set_option maxRecDepth 16384

/-- Truncation to 32 bits used throughout SHA-256. -/
def w32 (n : Nat) : Nat := n % 4294967296

/-- Right rotation of a 32-bit word by `s` positions. -/
def rotr (s x : Nat) : Nat := w32 ((x >>> s) ||| (x <<< (32 - s)))

/-- Bitwise complement of a 32-bit word. -/
def compl32 (x : Nat) : Nat := x ^^^ 4294967295

/-- Bit-by-bit search, from the high bit down, for the largest `r` with
`r ^ k ≤ n`. -/
def rootAux (k : Nat) : Nat → Nat → Nat → Nat
  | 0, _, r => r
  | bit + 1, n, r =>
    let c := r + (1 <<< bit)
    if c ^ k ≤ n then rootAux k bit n c else rootAux k bit n r

/-- Integer `k`-th root of `n`, assuming it fits in `bits` bits. -/
def introot (k bits n : Nat) : Nat := rootAux k bits n 0

/-- The first 64 primes, whose roots seed the SHA-256 constants. -/
def sha256Primes : List Nat :=
  [2, 3, 5, 7, 11, 13, 17, 19, 23, 29, 31, 37, 41, 43, 47, 53,
   59, 61, 67, 71, 73, 79, 83, 89, 97, 101, 103, 107, 109, 113, 127, 131,
   137, 139, 149, 151, 157, 163, 167, 173, 179, 181, 191, 193, 197, 199, 211, 223,
   227, 229, 233, 239, 241, 251, 257, 263, 269, 271, 277, 281, 283, 293, 307, 311]

/-- The 64 SHA-256 round constants (FIPS 180-4 §4.2.2): the first 32 bits
of the fractional parts of the cube roots of the first 64 primes,
`0x428a2f98, 0x71374491, ...`. -/
def shaK : List Nat :=
  sha256Primes.map fun p => introot 3 48 (p <<< 96) % 4294967296

/-- Initial SHA-256 hash state (FIPS 180-4 §5.3.3): the first 32 bits of
the fractional parts of the square roots of the first 8 primes,
`0x6a09e667, 0xbb67ae85, ...`. -/
def shaH0 : List Nat :=
  (sha256Primes.take 8).map fun p => introot 2 48 (p <<< 64) % 4294967296

/-- Big-endian 8-byte encoding of a message bit length. -/
def be64 (n : Nat) : List Nat :=
  [(n >>> 56) % 256, (n >>> 48) % 256, (n >>> 40) % 256, (n >>> 32) % 256,
   (n >>> 24) % 256, (n >>> 16) % 256, (n >>> 8) % 256, n % 256]

/-- SHA-256 padding: append `0x80`, zero bytes to 56 mod 64, then the
bit length as a big-endian 64-bit integer. -/
def shaPad (msg : List Nat) : List Nat :=
  msg ++ [0x80] ++ List.replicate ((119 - msg.length % 64) % 64) 0
      ++ be64 (8 * msg.length)

/-- Group bytes into 32-bit big-endian words. -/
def bytesToWords : List Nat → List Nat
  | a :: b :: c :: d :: rest =>
      ((a <<< 24) ||| (b <<< 16) ||| (c <<< 8) ||| d) :: bytesToWords rest
  | _ => []

/-- Message-schedule extension: starting from the 16 block words (held in
reverse order in `acc`), produce `fuel` further words (FIPS 180-4 §6.2.2
step 1); the result is the full schedule in forward order. -/
def shaSched : Nat → List Nat → List Nat
  | 0, acc => acc.reverse
  | fuel + 1, acc =>
      let w2 := (acc.get? 1).getD 0
      let w7 := (acc.get? 6).getD 0
      let w15 := (acc.get? 14).getD 0
      let w16 := (acc.get? 15).getD 0
      let s0 := rotr 7 w15 ^^^ rotr 18 w15 ^^^ (w15 >>> 3)
      let s1 := rotr 17 w2 ^^^ rotr 19 w2 ^^^ (w2 >>> 10)
      shaSched fuel (w32 (w16 + s0 + w7 + s1) :: acc)

/-- One SHA-256 compression round per `(k, w)` pair (FIPS 180-4 §6.2.2
step 3), on the working variables `(a, b, c, d, e, f, g, h)`. -/
def shaRounds : List (Nat × Nat) →
    Nat × Nat × Nat × Nat × Nat × Nat × Nat × Nat →
    Nat × Nat × Nat × Nat × Nat × Nat × Nat × Nat
  | [], s => s
  | (k, wt) :: rest, (a, b, c, d, e, f, g, h) =>
      let s1 := rotr 6 e ^^^ rotr 11 e ^^^ rotr 25 e
      let ch := (e &&& f) ^^^ (compl32 e &&& g)
      let t1 := w32 (h + s1 + ch + k + wt)
      let s0 := rotr 2 a ^^^ rotr 13 a ^^^ rotr 22 a
      let mj := (a &&& b) ^^^ (a &&& c) ^^^ (b &&& c)
      let t2 := w32 (s0 + mj)
      shaRounds rest (w32 (t1 + t2), a, b, c, w32 (d + t1), e, f, g)

/-- Compress one 16-word message block into the hash state. -/
def shaCompress (H : List Nat) (blk : List Nat) : List Nat :=
  let w := shaSched 48 blk.reverse
  let a0 := (H.get? 0).getD 0
  let b0 := (H.get? 1).getD 0
  let c0 := (H.get? 2).getD 0
  let d0 := (H.get? 3).getD 0
  let e0 := (H.get? 4).getD 0
  let f0 := (H.get? 5).getD 0
  let g0 := (H.get? 6).getD 0
  let h0 := (H.get? 7).getD 0
  match shaRounds (shaK.zip w) (a0, b0, c0, d0, e0, f0, g0, h0) with
  | (a, b, c, d, e, f, g, h) =>
      [w32 (a0 + a), w32 (b0 + b), w32 (c0 + c), w32 (d0 + d),
       w32 (e0 + e), w32 (f0 + f), w32 (g0 + g), w32 (h0 + h)]

/-- Fold the compression function over the 16-word blocks of the padded
message; `fuel` bounds the number of blocks (the caller passes the word
count, which always suffices). -/
def shaBlocks : Nat → List Nat → List Nat → List Nat
  | 0, H, _ => H
  | _ + 1, H, [] => H
  | fuel + 1, H, ws => shaBlocks fuel (shaCompress H (ws.take 16)) (ws.drop 16)

/-- Lowercase hexadecimal digit. -/
def hexDigit (d : Nat) : Char :=
  if d < 10 then Char.ofNat (48 + d) else Char.ofNat (87 + d)

/-- Rendering of a 32-bit word as eight hex digits. -/
def hex8 (n : Nat) : String :=
  String.mk ((List.range 8).map fun i => hexDigit ((n >>> (4 * (7 - i))) % 16))

/-- SHA-256 of a byte sequence, as a 64-character lowercase hex string:
the model of `hashlib.sha256(bytes).hexdigest()`. -/
def sha256Hex (msg : List Nat) : String :=
  let ws := bytesToWords (shaPad msg)
  String.join ((shaBlocks ws.length shaH0 ws).map hex8)

/-- UTF-8 encoding of one character, the model of Python `str.encode()`
applied character-wise. -/
def utf8Char (c : Char) : List Nat :=
  let n := c.toNat
  if n < 0x80 then [n]
  else if n < 0x800 then
    [0xc0 ||| (n >>> 6), 0x80 ||| (n &&& 63)]
  else if n < 0x10000 then
    [0xe0 ||| (n >>> 12), 0x80 ||| ((n >>> 6) &&& 63), 0x80 ||| (n &&& 63)]
  else
    [0xf0 ||| (n >>> 18), 0x80 ||| ((n >>> 12) &&& 63),
     0x80 ||| ((n >>> 6) &&& 63), 0x80 ||| (n &&& 63)]

/-- UTF-8 bytes of a string (Python `str.encode()`). -/
def utf8Bytes (s : String) : List Nat :=
  (s.toList.map utf8Char).flatten

/-! ### Canonical JSON serialization (`json.dumps(..., sort_keys=True)`)

Payloads in this repository are flat string-to-string mappings (see the
`document_data` dict built in `api_server.py` and the genesis payload), so
the payload is embedded as an insertion-ordered association list of string
pairs.  `json.dumps` with `sort_keys=True` and default separators renders
an object as `{"k": v, "k2": v2}` with the keys in sorted order. -/

/-- Rendering of four hex digits used in `\uXXXX` escapes. -/
def hex4 (n : Nat) : List Char :=
  (List.range 4).map fun i => hexDigit ((n >>> (4 * (3 - i))) % 16)

/-- JSON escaping of one character, per `json.dumps` with the default
`ensure_ascii=True`: two-character shortcuts for the common escapes,
`\uXXXX` for other control and all non-ASCII characters (surrogate pairs
above the BMP). -/
def escChar (c : Char) : List Char :=
  if c = '"' then ['\\', '"']
  else if c = '\\' then ['\\', '\\']
  else if c = '\n' then ['\\', 'n']
  else if c = '\r' then ['\\', 'r']
  else if c = '\t' then ['\\', 't']
  else if c.toNat = 8 then ['\\', 'b']
  else if c.toNat = 12 then ['\\', 'f']
  else if c.toNat < 32 then ['\\', 'u'] ++ hex4 c.toNat
  else if c.toNat < 127 then [c]
  else if c.toNat < 0x10000 then ['\\', 'u'] ++ hex4 c.toNat
  else
    ['\\', 'u'] ++ hex4 (0xd800 + ((c.toNat - 0x10000) >>> 10))
      ++ ['\\', 'u'] ++ hex4 (0xdc00 + ((c.toNat - 0x10000) &&& 0x3ff))

/-- A JSON string literal: quotes around the escaped characters. -/
def jsonStr (s : String) : String :=
  "\"" ++ String.mk ((s.toList.map escChar).flatten) ++ "\""

/-- Lexicographic (code-point) order on strings, the order Python uses to
sort object keys. -/
def charListLe : List Char → List Char → Bool
  | [], _ => true
  | _ :: _, [] => false
  | a :: as, b :: bs =>
    if a.toNat < b.toNat then true
    else if b.toNat < a.toNat then false
    else charListLe as bs

/-- Order test: `strLe a b` holds when `a ≤ b` in Python's string order. -/
def strLe (a b : String) : Bool := charListLe a.toList b.toList

/-- The payload of a block: an insertion-ordered mapping from string keys
to string values (a Python dict, which cannot hold duplicate keys). -/
abbrev Payload := List (String × String)

/-- Stable insertion of a key-value pair into a key-sorted list. -/
def insertPair (p : String × String) : Payload → Payload
  | [] => [p]
  | q :: rest => if strLe p.1 q.1 then p :: q :: rest else q :: insertPair p rest

/-- Sort a payload by key (what `sort_keys=True` does to a dict whose keys
are necessarily distinct). -/
def sortPairs : Payload → Payload
  | [] => []
  | p :: rest => insertPair p (sortPairs rest)

/-- Serialize a payload as a JSON object with sorted keys. -/
def dumpPayload (p : Payload) : String :=
  "\x7b"
    ++ String.intercalate ", "
        ((sortPairs p).map fun kv => jsonStr kv.1 ++ ": " ++ jsonStr kv.2)
    ++ "\x7d"

/-- The serialization `json.dumps({"index": ..., "timestamp": ...,
"data": ..., "previous_hash": ..., "nonce": ...}, sort_keys=True)` from
`Block.calculate_hash`.  The five fixed keys are rendered in their sorted
order: `data < index < nonce < previous_hash < timestamp`. -/
def blockString (index : Nat) (timestamp : String) (data : Payload)
    (previous_hash : String) (nonce : Nat) : String :=
  "\x7b\"data\": " ++ dumpPayload data
    ++ ", \"index\": " ++ toString index
    ++ ", \"nonce\": " ++ toString nonce
    ++ ", \"previous_hash\": " ++ jsonStr previous_hash
    ++ ", \"timestamp\": " ++ jsonStr timestamp
    ++ "\x7d"

/-! ### `Block` -/

/-- The `Block` class: index, timestamp, payload, link to the predecessor's
digest, nonce, digest. -/
structure Block where
  index : Nat
  timestamp : String
  data : Payload
  previous_hash : String
  nonce : Nat
  hash : String
deriving DecidableEq

/-- Model of `Block.calculate_hash`: SHA-256 hex digest of the canonical
serialization of the five content fields (the stored `hash` itself is not
an input). -/
def Block.calculateHash (b : Block) : String :=
  sha256Hex (utf8Bytes (blockString b.index b.timestamp b.data b.previous_hash b.nonce))

/-- The `Block` constructor `__init__`: nonce starts at 0 and the digest is
computed immediately via `calculate_hash`. -/
def Block.init (index : Nat) (timestamp : String) (data : Payload)
    (previous_hash : String) : Block :=
  { index := index, timestamp := timestamp, data := data,
    previous_hash := previous_hash, nonce := 0,
    hash := Block.calculateHash
      (Block.mk index timestamp data previous_hash 0 "") }

/-- Target prefix `"0" * difficulty`, the prefix a sealed digest must carry. -/
def zeroTarget (difficulty : Nat) : String :=
  String.mk (List.replicate difficulty '0')

/-- One iteration of the mining loop body: increment the nonce and
recompute the digest. -/
def bumpAndRehash (b : Block) : Block :=
  { b with nonce := b.nonce + 1,
           hash := Block.calculateHash { b with nonce := b.nonce + 1 } }

/-- Model of `Block.mine_block`: loop while the digest's first `difficulty`
characters differ from the target, incrementing the nonce and recomputing.
The Python loop is unbounded; `fuel` bounds the number of iterations and
`none` models non-termination within that bound. -/
def Block.mineBlock (fuel : Nat) (difficulty : Nat) (b : Block) : Option Block :=
  if b.hash.take difficulty = zeroTarget difficulty then some b
  else
    match fuel with
    | 0 => none
    | f + 1 => Block.mineBlock f difficulty (bumpAndRehash b)

/-- The persisted form of a block (`Block.to_dict` / one JSON record of the
saved file).  Every field is optional so that a record with missing keys —
the corruption case `load_from_file` can encounter — is representable;
`to_dict` always produces all six. -/
structure BlockRecord where
  index : Option Nat
  timestamp : Option String
  data : Option Payload
  previous_hash : Option String
  nonce : Option Nat
  hash : Option String
deriving DecidableEq

/-- Model of `Block.to_dict`. -/
def Block.toDict (b : Block) : BlockRecord :=
  ⟨some b.index, some b.timestamp, some b.data, some b.previous_hash,
   some b.nonce, some b.hash⟩

/-! ### `DocumentBlockchain`

The class also initializes a `pending_documents` list, but no method ever
reads or writes it, so it is omitted from the state. -/

/-- The `DocumentBlockchain` state: the chain and the configured
difficulty. -/
structure DocumentBlockchain where
  chain : List Block
  difficulty : Nat
deriving DecidableEq

/-- The genesis payload from `create_genesis_block`. -/
def genesisData : Payload :=
  [("type", "genesis"), ("message", "Genesis Block - DocuChain System")]

/-- Model of `create_genesis_block`: build `Block(0, now, genesisData, "0")`, mine it
at the configured difficulty, append it.  `now` stands for
`datetime.now().isoformat()`. -/
def createGenesisBlock (fuel : Nat) (now : String)
    (self : DocumentBlockchain) : Option DocumentBlockchain :=
  (Block.mineBlock fuel self.difficulty (Block.init 0 now genesisData "0")).map
    fun g => { self with chain := self.chain ++ [g] }

/-- Model of `DocumentBlockchain.__init__`: empty chain, store the difficulty, mine
the genesis block. -/
def newBlockchain (fuel : Nat) (now : String) (difficulty : Nat) :
    Option DocumentBlockchain :=
  createGenesisBlock fuel now ⟨[], difficulty⟩

/-- Model of `get_latest_block`: `chain[-1]`; `none` models the `IndexError` raised
on an empty chain. -/
def getLatestBlock (self : DocumentBlockchain) : Option Block :=
  self.chain.getLast?

/-- The summary dict returned by `add_document`. -/
structure AddResult where
  success : Bool
  block_number : Nat
  block_hash : String
  timestamp : String
deriving DecidableEq

/-- Model of `add_document`: build a block at index `len(chain)` with timestamp
`now`, the supplied payload and the tip's digest as predecessor link; mine
it at the configured difficulty; append it; return the summary. -/
def addDocument (fuel : Nat) (now : String) (document_data : Payload)
    (self : DocumentBlockchain) : Option (DocumentBlockchain × AddResult) :=
  match getLatestBlock self with
  | none => none
  | some tip =>
    match Block.mineBlock fuel self.difficulty
        (Block.init self.chain.length now document_data tip.hash) with
    | none => none
    | some nb =>
      some ({ self with chain := self.chain ++ [nb] },
            ⟨true, nb.index, nb.hash, nb.timestamp⟩)

/-- The record returned by `verify_document` on success. -/
structure VerifyResult where
  valid : Bool
  block_number : Nat
  timestamp : String
  data : Payload
deriving DecidableEq

/-- Match test `block.data.get("document_hash") == document_hash` (a missing key gives
`None`, which never equals the string argument). -/
def matchesDocHash (document_hash : String) (b : Block) : Bool :=
  b.data.lookup "document_hash" == some document_hash

/-- Model of `verify_document`: scan `chain[1:]` for the first payload match and
return its record, else `None`. -/
def verifyDocument (document_hash : String) (self : DocumentBlockchain) :
    Option VerifyResult :=
  ((self.chain.drop 1).find? (matchesDocHash document_hash)).map
    fun b => ⟨true, b.index, b.timestamp, b.data⟩

/-- The body of the `is_chain_valid` loop, walking the chain with the
previous block at hand: return false as soon as a block's stored digest
differs from its recomputation (I1) or its predecessor link differs from
the previous block's digest (I2). -/
def validFrom (previous : Block) : List Block → Bool
  | [] => true
  | current :: rest =>
    if current.hash ≠ current.calculateHash then false
    else if current.previous_hash ≠ previous.hash then false
    else validFrom current rest

/-- Model of `is_chain_valid`: check every block from position 1 on against its
predecessor; a chain with at most one block is vacuously valid. -/
def isChainValid (self : DocumentBlockchain) : Bool :=
  match self.chain with
  | [] => true
  | g :: rest => validFrom g rest

/-! ### Persistence

`save_to_file` writes `[block.to_dict() for block in chain]` as JSON;
`load_from_file` parses it back.  `json.dump`/`json.load` round-trip the
record list exactly (string keys, string/int values, insertion order
preserved), so the file is embedded as the list of records itself. -/

/-- Model of `save_to_file`. -/
def saveToFile (self : DocumentBlockchain) : List BlockRecord :=
  self.chain.map Block.toDict

/-- The uncaught exception `load_from_file` can raise: a `KeyError` for a
record missing one of the six required fields (only `FileNotFoundError` is
caught in the source). -/
inductive LoadError where
  | keyError (field : String)
deriving DecidableEq

/-- Reconstruct one block from a persisted record, accessing the fields in
the order the source does: `Block(index, timestamp, data, previous_hash)`
then `block.nonce = ...; block.hash = ...`.  A missing field raises
`KeyError`.  No other validation is performed. -/
def parseRecord (r : BlockRecord) : Except LoadError Block :=
  match r.index with
  | none => .error (.keyError "index")
  | some idx =>
    match r.timestamp with
    | none => .error (.keyError "timestamp")
    | some ts =>
      match r.data with
      | none => .error (.keyError "data")
      | some d =>
        match r.previous_hash with
        | none => .error (.keyError "previous_hash")
        | some ph =>
          match r.nonce with
          | none => .error (.keyError "nonce")
          | some n =>
            match r.hash with
            | none => .error (.keyError "hash")
            | some h => .ok { Block.init idx ts d ph with nonce := n, hash := h }

/-- The loading loop: `self.chain = []`, then append each reconstructed
block in turn.  An exception part-way leaves the blocks appended so far in
place — the state on error is the partial chain. -/
def loadLoop (self : DocumentBlockchain) :
    List BlockRecord → List Block → DocumentBlockchain × Except LoadError Bool
  | [], acc => ({ self with chain := acc }, .ok true)
  | r :: rest, acc =>
    match parseRecord r with
    | .ok b => loadLoop self rest (acc ++ [b])
    | .error e => ({ self with chain := acc }, .error e)

/-- Model of `load_from_file`: `none` for the file stands for `FileNotFoundError`
(caught: return `False`, chain untouched); otherwise replace the chain
with the reconstructed blocks, `True` on success and an uncaught
`KeyError` when a record lacks a field. -/
def loadFromFile (file : Option (List BlockRecord))
    (self : DocumentBlockchain) : DocumentBlockchain × Except LoadError Bool :=
  match file with
  | none => (self, .ok false)
  | some records => loadLoop self records []

/-! ## Derived definitions used by the verification -/

/-- The two per-block checks `is_chain_valid` performs: I1 (stored digest
equals recomputation) and I2 (stored predecessor link equals the previous
block's digest). -/
def blockOk (previous current : Block) : Prop :=
  current.hash = current.calculateHash ∧ current.previous_hash = previous.hash

instance (previous current : Block) : Decidable (blockOk previous current) :=
  inferInstanceAs (Decidable (_ ∧ _))

/-- Append a sequence of documents, each with its own timestamp, feeding
each resulting state into the next call; `none` as soon as one append
fails. -/
def appendAll (fuel : Nat) : List (String × Payload) → DocumentBlockchain →
    Option DocumentBlockchain
  | [], L => some L
  | (now, p) :: docs, L =>
    match addDocument fuel now p L with
    | none => none
    | some (L2, _) => appendAll fuel docs L2

/-- Build a ledger from scratch: mine the genesis block, then append every
document in order. -/
def buildLedger (fuel : Nat) (now0 : String) (difficulty : Nat)
    (docs : List (String × Payload)) : Option DocumentBlockchain :=
  match newBlockchain fuel now0 difficulty with
  | none => none
  | some L0 => appendAll fuel docs L0

/-- The ordering `sort_keys=True` establishes between adjacent rendered
pairs. -/
def keyLe (a b : String × String) : Prop := strLe a.1 b.1 = true

/-- Replacement of the block at one position by a mutated copy, used to
express the tampering scenarios (`chain[i].data = ...` or
`chain[i].previous_hash = ...` in place). -/
def tamperAt (f : Block → Block) : Nat → List Block → List Block
  | _, [] => []
  | 0, b :: rest => f b :: rest
  | i + 1, b :: rest => b :: tamperAt f i rest

/-! ## Concrete sample data

Difficulty 0 makes the mining loop return immediately (the empty prefix
always matches), so these close under evaluation. -/

/-- A document payload like the one built by the issue endpoint. -/
def payloadDoc : Payload :=
  [("type", "document"), ("document_hash", "deadbeef"), ("recipient_id", "alice")]

/-- The same key-value pairs as `payloadDoc` in a different insertion
order. -/
def payloadDocPerm : Payload :=
  [("document_hash", "deadbeef"), ("recipient_id", "alice"), ("type", "document")]

/-- A tampered payload: a different document hash. -/
def payloadTampered : Payload :=
  [("type", "document"), ("document_hash", "beefdead"), ("recipient_id", "alice")]

/-- The genesis block mined at difficulty 0. -/
def g0 : Block := Block.init 0 "g" genesisData "0"

/-- The first document block at difficulty 0. -/
def b1 : Block := Block.init 1 "t1" payloadDoc g0.hash

/-- A genesis-only ledger at difficulty 0. -/
def ledger0 : DocumentBlockchain := ⟨[g0], 0⟩

/-- The ledger built from genesis plus one document at difficulty 0. -/
def sampleLedger : DocumentBlockchain := ⟨[g0, b1], 0⟩

/-- The summary returned by the sample append. -/
def res1 : AddResult := ⟨true, b1.index, b1.hash, b1.timestamp⟩

/-- A block whose payload is `payloadDoc`, fields fixed, digest field
irrelevant to `calculate_hash`. -/
def blockPermA : Block := Block.mk 3 "ts" payloadDoc "prev" 7 ""

/-- The same block with the payload pairs inserted in a different
order. -/
def blockPermB : Block := Block.mk 3 "ts" payloadDocPerm "prev" 7 ""

/-- A record with all six fields present but a non-hex digest; block
index 0. -/
def recordA : BlockRecord :=
  ⟨some 0, some "t0", some [], some "0", some 0, some "not-hex!"⟩

/-- A record with all six fields present, index 5 (so `[recordA, recordB]`
is a non-monotonic index sequence) and malformed hex digests. -/
def recordB : BlockRecord :=
  ⟨some 5, some "t5", some [], some "zzzz", some 3, some "ZZZZ"⟩

/-- A record whose `nonce` field is missing: reconstruction raises
`KeyError("nonce")`. -/
def recordNoNonce : BlockRecord :=
  ⟨some 1, some "t1", some [], some "0", none, some "aa"⟩

/-! ## Basic lemmas about blocks and mining -/

/-- Overwriting the stored digest does not change the recomputed digest:
`calculate_hash` reads only the five content fields. -/
theorem calculateHash_set_hash (b : Block) (h : String) :
    Block.calculateHash { b with hash := h } = b.calculateHash := by
  simp only [Block.calculateHash]

/-- A freshly constructed block satisfies invariant I1. -/
theorem init_I1 (index : Nat) (timestamp : String) (data : Payload)
    (previous_hash : String) :
    (Block.init index timestamp data previous_hash).hash
      = (Block.init index timestamp data previous_hash).calculateHash := by
  simp only [Block.init, Block.calculateHash]

@[simp] theorem init_index (i : Nat) (ts : String) (d : Payload) (p : String) :
    (Block.init i ts d p).index = i := rfl

@[simp] theorem init_timestamp (i : Nat) (ts : String) (d : Payload) (p : String) :
    (Block.init i ts d p).timestamp = ts := rfl

@[simp] theorem init_data (i : Nat) (ts : String) (d : Payload) (p : String) :
    (Block.init i ts d p).data = d := rfl

@[simp] theorem init_previous_hash (i : Nat) (ts : String) (d : Payload) (p : String) :
    (Block.init i ts d p).previous_hash = p := rfl

@[simp] theorem bump_index (b : Block) : (bumpAndRehash b).index = b.index := rfl

@[simp] theorem bump_timestamp (b : Block) :
    (bumpAndRehash b).timestamp = b.timestamp := rfl

@[simp] theorem bump_data (b : Block) : (bumpAndRehash b).data = b.data := rfl

@[simp] theorem bump_previous_hash (b : Block) :
    (bumpAndRehash b).previous_hash = b.previous_hash := rfl

/-- Invariant I1 is re-established every time the mining loop body runs. -/
theorem bump_I1 (b : Block) :
    (bumpAndRehash b).hash = (bumpAndRehash b).calculateHash := by
  simp only [bumpAndRehash, Block.calculateHash]

/-- Specification of the mining loop: when it returns, the resulting block
carries the difficulty prefix, the four content fields are untouched, and
invariant I1 transfers from input to output (the loop recomputes the digest
whenever it touches the nonce). -/
theorem mineBlock_spec (fuel : Nat) :
    ∀ (difficulty : Nat) (b b2 : Block),
      Block.mineBlock fuel difficulty b = some b2 →
      b2.hash.take difficulty = zeroTarget difficulty ∧
      b2.index = b.index ∧ b2.timestamp = b.timestamp ∧
      b2.data = b.data ∧ b2.previous_hash = b.previous_hash ∧
      (b.hash = b.calculateHash → b2.hash = b2.calculateHash) := by
  induction fuel with
  | zero =>
    intro difficulty b b2 h
    unfold Block.mineBlock at h
    by_cases hc : b.hash.take difficulty = zeroTarget difficulty
    · rw [if_pos hc] at h
      cases h
      exact ⟨hc, rfl, rfl, rfl, rfl, fun h1 => h1⟩
    · rw [if_neg hc] at h
      exact absurd h (by simp)
  | succ f ih =>
    intro difficulty b b2 h
    unfold Block.mineBlock at h
    by_cases hc : b.hash.take difficulty = zeroTarget difficulty
    · rw [if_pos hc] at h
      cases h
      exact ⟨hc, rfl, rfl, rfl, rfl, fun h1 => h1⟩
    · rw [if_neg hc] at h
      replace h : Block.mineBlock f difficulty (bumpAndRehash b) = some b2 := h
      obtain ⟨hp, hi, ht, hd, hph, hI⟩ := ih difficulty (bumpAndRehash b) b2 h
      exact ⟨hp, hi.trans (bump_index b), ht.trans (bump_timestamp b),
             hd.trans (bump_data b), hph.trans (bump_previous_hash b),
             fun _ => hI (bump_I1 b)⟩

/-! ## Characterizing `is_chain_valid` -/

theorem validFrom_nil (prev : Block) : validFrom prev [] = true := rfl

theorem validFrom_cons (prev b : Block) (l : List Block) :
    validFrom prev (b :: l) = true ↔ (blockOk prev b ∧ validFrom b l = true) := by
  show (if b.hash ≠ b.calculateHash then false
        else if b.previous_hash ≠ prev.hash then false
        else validFrom b l) = true ↔ _
  by_cases h1 : b.hash = b.calculateHash
  · rw [if_neg (not_not_intro h1)]
    by_cases h2 : b.previous_hash = prev.hash
    · rw [if_neg (not_not_intro h2)]
      exact ⟨fun h => ⟨⟨h1, h2⟩, h⟩, fun h => h.2⟩
    · rw [if_pos h2]
      exact ⟨fun h => absurd h (by simp), fun h => absurd h.1.2 h2⟩
  · rw [if_pos h1]
    exact ⟨fun h => absurd h (by simp), fun h => absurd h.1.1 h1⟩

/-- Index form: walking the tail `l` with `prev` in front succeeds exactly
when every element of `l` passes its checks against its predecessor in the
full list `prev :: l`. -/
theorem validFrom_iff_forall (l : List Block) :
    ∀ prev : Block, validFrom prev l = true ↔
      ∀ i (h : i < l.length),
        blockOk ((prev :: l).get ⟨i, Nat.lt_succ_of_lt h⟩) (l.get ⟨i, h⟩) := by
  induction l with
  | nil => intro prev; simp [validFrom_nil]
  | cons b l ih =>
    intro prev
    rw [validFrom_cons, ih b]
    constructor
    · rintro ⟨h0, hrest⟩ i hi
      match i with
      | 0 => exact h0
      | j + 1 => exact hrest j (Nat.lt_of_succ_lt_succ hi)
    · intro h
      refine ⟨h 0 (Nat.succ_pos _), fun j hj => ?_⟩
      exact h (j + 1) (Nat.succ_lt_succ hj)

/-- Validity of the whole chain, in indexed form: true exactly when every
block at a position `i ≥ 1` passes I1 and I2 against the block at `i - 1`.
Only those two checks appear; the proof-of-work prefix and the genesis
block's own recomputation do not. -/
theorem isChainValid_iff (L : DocumentBlockchain) :
    isChainValid L = true ↔
      ∀ i, 1 ≤ i → ∀ (h2 : i < L.chain.length) (h3 : i - 1 < L.chain.length),
        (L.chain.get ⟨i, h2⟩).hash = (L.chain.get ⟨i, h2⟩).calculateHash ∧
        (L.chain.get ⟨i, h2⟩).previous_hash = (L.chain.get ⟨i - 1, h3⟩).hash := by
  obtain ⟨chain, difficulty⟩ := L
  match chain with
  | [] =>
    constructor
    · intro _ i h1 h2 h3
      exact absurd h2 (by simp)
    · intro _
      rfl
  | g :: rest =>
    show validFrom g rest = true ↔ _
    rw [validFrom_iff_forall rest g]
    constructor
    · intro h i h1 h2 h3
      match i, h1 with
      | j + 1, _ =>
        have hj : j < rest.length := Nat.lt_of_succ_lt_succ h2
        exact (h j hj :)
    · intro h j hj
      have h2 : j + 1 < (g :: rest).length := Nat.succ_lt_succ hj
      have h3 : (j + 1) - 1 < (g :: rest).length :=
        Nat.lt_of_le_of_lt (Nat.sub_le _ _) h2
      exact (h (j + 1) (Nat.succ_pos _) h2 h3 :)

/-- Appending one block: the extended walk succeeds exactly when the
original walk does and the new block passes its checks against the last
block (`getLastD l prev` is the last element of `prev :: l`). -/
theorem validFrom_append (nb : Block) (l : List Block) :
    ∀ prev : Block, validFrom prev (l ++ [nb]) = true ↔
      (validFrom prev l = true ∧ blockOk (l.getLastD prev) nb) := by
  induction l with
  | nil =>
    intro prev
    simp only [List.nil_append, List.getLastD_nil, validFrom_nil]
    rw [validFrom_cons]
    simp [validFrom_nil]
  | cons b l ih =>
    intro prev
    simp only [List.cons_append, List.getLastD_cons]
    rw [validFrom_cons, ih b, validFrom_cons]
    tauto

/-! ## Ledger construction preserves validity -/

/-- Validity only depends on the chain, not on the stored difficulty. -/
theorem isChainValid_difficulty (c : List Block) (d1 d2 : Nat) :
    isChainValid ⟨c, d1⟩ = isChainValid ⟨c, d2⟩ := by
  cases c <;> rfl

/-- Appending a block that satisfies I1 and links to the digest of the
current tip keeps the chain valid. -/
theorem isChainValid_append (L : DocumentBlockchain) (nb tip : Block)
    (htip : L.chain.getLast? = some tip)
    (hv : isChainValid L = true)
    (h1 : nb.hash = nb.calculateHash)
    (h2 : nb.previous_hash = tip.hash) :
    isChainValid { L with chain := L.chain ++ [nb] } = true := by
  obtain ⟨chain, difficulty⟩ := L
  match chain, htip with
  | g :: rest, htip =>
    show validFrom g (rest ++ [nb]) = true
    rw [validFrom_append nb rest g]
    refine ⟨hv, h1, ?_⟩
    have hlast : rest.getLastD g = tip := by
      have hd := List.getLastD_eq_getLast? g rest
      rw [List.getLast?_cons] at htip
      rw [hd]
      exact Option.some.inj htip
    rw [hlast]
    exact h2

/-- Full specification of a successful `add_document` call: the new state,
the contents of the appended block, and the returned summary. -/
theorem addDocument_spec (fuel : Nat) (now : String) (document_data : Payload)
    (L L2 : DocumentBlockchain) (res : AddResult)
    (h : addDocument fuel now document_data L = some (L2, res)) :
    ∃ tip nb : Block,
      getLatestBlock L = some tip ∧
      L2 = { L with chain := L.chain ++ [nb] } ∧
      res = ⟨true, nb.index, nb.hash, nb.timestamp⟩ ∧
      nb.index = L.chain.length ∧
      nb.timestamp = now ∧
      nb.data = document_data ∧
      nb.previous_hash = tip.hash ∧
      nb.hash = nb.calculateHash ∧
      nb.hash.take L.difficulty = zeroTarget L.difficulty := by
  unfold addDocument at h
  split at h
  · exact absurd h (by simp)
  · rename_i tip htip
    split at h
    · exact absurd h (by simp)
    · rename_i nb hm
      injection h with h2
      injection h2 with hL2 hres
      obtain ⟨hp, hi, ht, hd, hph, hI⟩ := mineBlock_spec fuel L.difficulty _ nb hm
      refine ⟨tip, nb, htip, hL2.symm, hres.symm, ?_, ?_, ?_, ?_, ?_, hp⟩
      · rw [hi, init_index]
      · rw [ht, init_timestamp]
      · rw [hd, init_data]
      · rw [hph, init_previous_hash]
      · exact hI (init_I1 ..)

/-- A successful `add_document` preserves chain validity. -/
theorem addDocument_valid (fuel : Nat) (now : String) (document_data : Payload)
    (L L2 : DocumentBlockchain) (res : AddResult)
    (hv : isChainValid L = true)
    (h : addDocument fuel now document_data L = some (L2, res)) :
    isChainValid L2 = true := by
  obtain ⟨tip, nb, htip, hL2, -, -, -, -, hph, hI1, -⟩ :=
    addDocument_spec fuel now document_data L L2 res h
  rw [hL2]
  exact isChainValid_append L nb tip htip hv hI1 hph

/-- A freshly constructed blockchain (mined genesis only) is valid. -/
theorem newBlockchain_valid (fuel : Nat) (now : String) (difficulty : Nat)
    (L : DocumentBlockchain) (h : newBlockchain fuel now difficulty = some L) :
    isChainValid L = true := by
  unfold newBlockchain createGenesisBlock at h
  match hm : Block.mineBlock fuel difficulty (Block.init 0 now genesisData "0") with
  | none => rw [hm] at h; exact absurd h (by simp)
  | some g =>
    rw [hm] at h
    replace h : (⟨[] ++ [g], difficulty⟩ : DocumentBlockchain) = L :=
      Option.some.inj h
    rw [← h]
    rfl

/-- Appending any sequence of documents preserves validity. -/
theorem appendAll_valid (fuel : Nat) (docs : List (String × Payload)) :
    ∀ L L2 : DocumentBlockchain, isChainValid L = true →
      appendAll fuel docs L = some L2 → isChainValid L2 = true := by
  induction docs with
  | nil =>
    intro L L2 hv h
    cases h
    exact hv
  | cons doc docs ih =>
    intro L L2 hv h
    obtain ⟨now, p⟩ := doc
    unfold appendAll at h
    match ha : addDocument fuel now p L with
    | none => rw [ha] at h; exact absurd h (by simp)
    | some (L1, res) =>
      rw [ha] at h
      exact ih L1 L2 (addDocument_valid fuel now p L L1 res hv ha) h

/-- Any ledger produced by `buildLedger` is valid. -/
theorem buildLedger_valid (fuel : Nat) (now0 : String) (difficulty : Nat)
    (docs : List (String × Payload)) (L : DocumentBlockchain)
    (h : buildLedger fuel now0 difficulty docs = some L) :
    isChainValid L = true := by
  unfold buildLedger at h
  match h0 : newBlockchain fuel now0 difficulty with
  | none => rw [h0] at h; exact absurd h (by simp)
  | some L0 =>
    rw [h0] at h
    exact appendAll_valid fuel docs L0 L
      (newBlockchain_valid fuel now0 difficulty L0 h0) h

/-! ## Persistence lemmas -/

/-- Reconstructing a block from its own persisted record restores it
field for field: the record carries all six fields, and the stored nonce
and digest overwrite the constructor's recomputation. -/
theorem parseRecord_toDict (b : Block) : parseRecord b.toDict = .ok b := rfl

/-- Loading the records of a list of blocks appends exactly those blocks,
whatever their contents. -/
theorem loadLoop_map_toDict (self : DocumentBlockchain) (blocks : List Block) :
    ∀ acc, loadLoop self (blocks.map Block.toDict) acc
      = ({ self with chain := acc ++ blocks }, .ok true) := by
  induction blocks with
  | nil => intro acc; simp [loadLoop]
  | cons b blocks ih =>
    intro acc
    show loadLoop self (b.toDict :: blocks.map Block.toDict) acc = _
    unfold loadLoop
    rw [parseRecord_toDict]
    show loadLoop self (blocks.map Block.toDict) (acc ++ [b]) = _
    rw [ih (acc ++ [b])]
    simp

/-- Save-then-load restores exactly the saved chain into any target state,
with no recomputation of nonces or digests. -/
theorem loadFromFile_saveToFile (L M : DocumentBlockchain) :
    loadFromFile (some (saveToFile L)) M = ({ M with chain := L.chain }, .ok true) := by
  unfold loadFromFile saveToFile
  have h := loadLoop_map_toDict M L.chain []
  simpa using h

/-- Loading a list of records that all parse succeeds and reconstructs
every record, in order. -/
theorem loadLoop_all_ok (self : DocumentBlockchain) (records : List BlockRecord) :
    ∀ acc, (∀ r ∈ records, (parseRecord r).isOk = true) →
      loadLoop self records acc
        = ({ self with
              chain := acc ++ records.filterMap fun r => (parseRecord r).toOption },
           .ok true) := by
  induction records with
  | nil => intro acc _; simp [loadLoop]
  | cons r records ih =>
    intro acc hall
    have hr := hall r (List.mem_cons_self r records)
    unfold loadLoop
    match hp : parseRecord r with
    | .error e => rw [hp] at hr; exact absurd hr (by simp [Except.isOk, Except.toBool])
    | .ok b =>
      show loadLoop self records (acc ++ [b]) = _
      rw [ih (acc ++ [b]) (fun x hx => hall x (List.mem_cons_of_mem r hx))]
      simp only [List.filterMap_cons, hp, List.append_assoc, List.singleton_append]
      rfl

/-- Loading records where the first failure occurs after a parsable prefix
stops at that record, raises its error, and leaves the chain holding
exactly the blocks of the prefix (a partial reconstruction). -/
theorem loadLoop_first_error (self : DocumentBlockchain) (pre : List BlockRecord) :
    ∀ acc (r : BlockRecord) (post : List BlockRecord) (e : LoadError),
      (∀ x ∈ pre, (parseRecord x).isOk = true) → parseRecord r = .error e →
      loadLoop self (pre ++ r :: post) acc
        = ({ self with
              chain := acc ++ pre.filterMap fun x => (parseRecord x).toOption },
           .error e) := by
  induction pre with
  | nil =>
    intro acc r post e _ hr
    unfold loadLoop
    rw [List.nil_append]
    show (match parseRecord r with
          | .ok b => loadLoop self post (acc ++ [b])
          | .error e => ({ self with chain := acc }, .error e)) = _
    rw [hr]
    simp
  | cons q pre ih =>
    intro acc r post e hall hr
    have hq := hall q (List.mem_cons_self q pre)
    rw [List.cons_append]
    unfold loadLoop
    match hp : parseRecord q with
    | .error e2 => rw [hp] at hq; exact absurd hq (by simp [Except.isOk, Except.toBool])
    | .ok b =>
      show loadLoop self (pre ++ r :: post) (acc ++ [b]) = _
      rw [ih (acc ++ [b]) r post e (fun x hx => hall x (List.mem_cons_of_mem q hx)) hr]
      simp only [List.filterMap_cons, hp, List.append_assoc, List.singleton_append]
      rfl

/-! ## The key order is a total preorder, antisymmetric on strings -/

theorem char_eq_of_toNat_eq (a b : Char) (h : a.toNat = b.toNat) : a = b :=
  Char.eq_of_val_eq (UInt32.ext h)

theorem charListLe_refl : ∀ l : List Char, charListLe l l = true := by
  intro l
  induction l with
  | nil => rfl
  | cons a as ih =>
    unfold charListLe
    rw [if_neg (Nat.lt_irrefl a.toNat), if_neg (Nat.lt_irrefl a.toNat)]
    exact ih

theorem charListLe_total : ∀ l1 l2 : List Char,
    charListLe l1 l2 = true ∨ charListLe l2 l1 = true := by
  intro l1
  induction l1 with
  | nil => intro l2; left; rfl
  | cons a as ih =>
    intro l2
    match l2 with
    | [] => right; rfl
    | b :: bs =>
      unfold charListLe
      rcases Nat.lt_trichotomy a.toNat b.toNat with h | h | h
      · left; rw [if_pos h]
      · rw [if_neg (by omega), if_neg (by omega), if_neg (by omega),
            if_neg (by omega)]
        exact ih bs
      · right; rw [if_pos h]

theorem charListLe_trans : ∀ l1 l2 l3 : List Char,
    charListLe l1 l2 = true → charListLe l2 l3 = true → charListLe l1 l3 = true := by
  intro l1
  induction l1 with
  | nil => intro l2 l3 _ _; rfl
  | cons a as ih =>
    intro l2 l3 h12 h23
    match l2, l3 with
    | [], _ => exact absurd h12 (by simp [charListLe])
    | _ :: _, [] => exact absurd h23 (by simp [charListLe])
    | b :: bs, c :: cs =>
      unfold charListLe at h12 h23 ⊢
      rcases Nat.lt_trichotomy a.toNat b.toNat with hab | hab | hab
      · rcases Nat.lt_trichotomy b.toNat c.toNat with hbc | hbc | hbc
        · rw [if_pos (Nat.lt_trans hab hbc)]
        · rw [if_pos (hbc ▸ hab)]
        · rw [if_neg (by omega), if_pos hbc] at h23
          exact absurd h23 (by simp)
      · rcases Nat.lt_trichotomy b.toNat c.toNat with hbc | hbc | hbc
        · rw [if_pos (by omega)]
        · rw [if_neg (by omega), if_neg (by omega)] at h12 h23 ⊢
          exact ih bs cs h12 h23
        · rw [if_neg (by omega), if_pos hbc] at h23
          exact absurd h23 (by simp)
      · rw [if_neg (by omega), if_pos hab] at h12
        exact absurd h12 (by simp)

theorem charListLe_antisymm : ∀ l1 l2 : List Char,
    charListLe l1 l2 = true → charListLe l2 l1 = true → l1 = l2 := by
  intro l1
  induction l1 with
  | nil =>
    intro l2 _ h21
    match l2 with
    | [] => rfl
    | b :: bs => exact absurd h21 (by simp [charListLe])
  | cons a as ih =>
    intro l2 h12 h21
    match l2 with
    | [] => exact absurd h12 (by simp [charListLe])
    | b :: bs =>
      unfold charListLe at h12 h21
      rcases Nat.lt_trichotomy a.toNat b.toNat with hab | hab | hab
      · rw [if_neg (by omega), if_pos hab] at h21
        exact absurd h21 (by simp)
      · rw [if_neg (by omega), if_neg (by omega)] at h12 h21
        rw [char_eq_of_toNat_eq a b hab, ih bs h12 h21]
      · rw [if_neg (by omega), if_pos hab] at h12
        exact absurd h12 (by simp)

theorem strLe_refl (s : String) : strLe s s = true := charListLe_refl _

theorem strLe_total (s t : String) : strLe s t = true ∨ strLe t s = true :=
  charListLe_total _ _

theorem strLe_trans (s t u : String) :
    strLe s t = true → strLe t u = true → strLe s u = true :=
  charListLe_trans _ _ _

theorem strLe_antisymm (s t : String) :
    strLe s t = true → strLe t s = true → s = t := by
  intro h1 h2
  exact String.ext (charListLe_antisymm _ _ h1 h2)

/-! ## Sorting by key: permutation, sortedness, canonicity -/

theorem insertPair_perm (p : String × String) :
    ∀ l : Payload, (insertPair p l).Perm (p :: l) := by
  intro l
  induction l with
  | nil => exact List.Perm.refl _
  | cons q rest ih =>
    unfold insertPair
    by_cases h : strLe p.1 q.1 = true
    · rw [if_pos h]
    · rw [if_neg h]
      exact (ih.cons q).trans (List.Perm.swap p q rest)

theorem sortPairs_perm : ∀ l : Payload, (sortPairs l).Perm l := by
  intro l
  induction l with
  | nil => exact List.Perm.refl _
  | cons p rest ih =>
    unfold sortPairs
    exact (insertPair_perm p (sortPairs rest)).trans (ih.cons p)

theorem mem_insertPair (x p : String × String) (l : Payload)
    (h : x ∈ insertPair p l) : x = p ∨ x ∈ l := by
  have := (insertPair_perm p l).mem_iff.mp h
  simpa using this

theorem insertPair_pairwise (p : String × String) :
    ∀ l : Payload, l.Pairwise keyLe → (insertPair p l).Pairwise keyLe := by
  intro l
  induction l with
  | nil => intro _; exact List.pairwise_cons.mpr ⟨by simp, List.Pairwise.nil⟩
  | cons q rest ih =>
    intro hp
    obtain ⟨hq, hrest⟩ := List.pairwise_cons.mp hp
    unfold insertPair
    by_cases h : strLe p.1 q.1 = true
    · rw [if_pos h]
      refine List.pairwise_cons.mpr ⟨?_, hp⟩
      intro x hx
      rcases List.mem_cons.mp hx with rfl | hx2
      · exact h
      · exact strLe_trans _ _ _ h (hq x hx2)
    · rw [if_neg h]
      refine List.pairwise_cons.mpr ⟨?_, ih hrest⟩
      intro x hx
      rcases mem_insertPair x p rest hx with hxp | hx2
      · subst hxp
        rcases strLe_total x.1 q.1 with h1 | h1
        · exact absurd h1 h
        · exact h1
      · exact hq x hx2

theorem sortPairs_pairwise : ∀ l : Payload, (sortPairs l).Pairwise keyLe := by
  intro l
  induction l with
  | nil => exact List.Pairwise.nil
  | cons p rest ih => exact insertPair_pairwise p (sortPairs rest) ih

/-- Two key-sorted lists with duplicate-free keys that are permutations of
each other are equal: sortedness fixes the key order and key uniqueness
fixes each pair. -/
theorem sorted_perm_nodup_eq : ∀ l1 l2 : Payload,
    l1.Pairwise keyLe → l2.Pairwise keyLe → (l1.map Prod.fst).Nodup →
    l1.Perm l2 → l1 = l2 := by
  intro l1
  induction l1 with
  | nil =>
    intro l2 _ _ _ hperm
    exact (hperm.symm.eq_nil).symm
  | cons a t1 ih =>
    intro l2 hs1 hs2 hnd hperm
    match l2 with
    | [] => exact absurd hperm.eq_nil (by simp)
    | b :: t2 =>
      have hab : a = b := by
        have hamem : a ∈ b :: t2 := hperm.mem_iff.mp (List.mem_cons_self a t1)
        have hbmem : b ∈ a :: t1 := hperm.mem_iff.mpr (List.mem_cons_self b t2)
        have hba : strLe b.1 a.1 = true := by
          rcases List.mem_cons.mp hamem with rfl | h2
          · exact strLe_refl _
          · exact List.rel_of_pairwise_cons hs2 h2
        have hab2 : strLe a.1 b.1 = true := by
          rcases List.mem_cons.mp hbmem with rfl | h2
          · exact strLe_refl _
          · exact List.rel_of_pairwise_cons hs1 h2
        have hkeys : a.1 = b.1 := strLe_antisymm _ _ hab2 hba
        rcases List.mem_cons.mp hbmem with rfl | h2
        · rfl
        · exfalso
          have : a.1 ∈ t1.map Prod.fst := hkeys ▸ List.mem_map_of_mem Prod.fst h2
          have hnd2 := List.pairwise_cons.mp hnd
          exact absurd rfl (hnd2.1 a.1 this)
      subst hab
      have htail := hperm.cons_inv
      rw [ih t2 hs1.of_cons hs2.of_cons (List.pairwise_cons.mp hnd).2 htail]

/-- Canonicity of the key sort: permuted payloads with duplicate-free keys
sort identically. -/
theorem sortPairs_eq_of_perm (l1 l2 : Payload)
    (hperm : l1.Perm l2) (hnd : (l1.map Prod.fst).Nodup) :
    sortPairs l1 = sortPairs l2 := by
  have h1 : (sortPairs l1).Perm (sortPairs l2) :=
    ((sortPairs_perm l1).trans hperm).trans (sortPairs_perm l2).symm
  have hnd1 : ((sortPairs l1).map Prod.fst).Nodup :=
    (((sortPairs_perm l1).map Prod.fst).nodup_iff).mpr hnd
  exact sorted_perm_nodup_eq (sortPairs l1) (sortPairs l2)
    (sortPairs_pairwise l1) (sortPairs_pairwise l2) hnd1 h1

/-! ## Lemmas about in-place tampering -/

@[simp] theorem set_data_hash (b : Block) (p : Payload) :
    ({ b with data := p } : Block).hash = b.hash := rfl

@[simp] theorem set_prev_hash (b : Block) (d : String) :
    ({ b with previous_hash := d } : Block).hash = b.hash := rfl

@[simp] theorem set_prev_prev (b : Block) (d : String) :
    ({ b with previous_hash := d } : Block).previous_hash = d := rfl

theorem tamperAt_length (f : Block → Block) :
    ∀ (i : Nat) (c : List Block), (tamperAt f i c).length = c.length := by
  intro i c
  induction c generalizing i with
  | nil => cases i <;> rfl
  | cons b rest ih =>
    match i with
    | 0 => rfl
    | j + 1 => simpa [tamperAt] using ih j

theorem tamperAt_get_self (f : Block → Block) :
    ∀ (i : Nat) (c : List Block) (h : i < c.length)
      (h2 : i < (tamperAt f i c).length),
      (tamperAt f i c).get ⟨i, h2⟩ = f (c.get ⟨i, h⟩) := by
  intro i c
  induction c generalizing i with
  | nil => intro h; simp at h
  | cons b rest ih =>
    intro h h2
    match i with
    | 0 => rfl
    | j + 1 => exact ih j (Nat.lt_of_succ_lt_succ h) _

theorem tamperAt_get_other (f : Block → Block) :
    ∀ (i j : Nat) (c : List Block), j ≠ i →
      ∀ (h : j < c.length) (h2 : j < (tamperAt f i c).length),
      (tamperAt f i c).get ⟨j, h2⟩ = c.get ⟨j, h⟩ := by
  intro i j c
  induction c generalizing i j with
  | nil => intro _ h; simp at h
  | cons b rest ih =>
    intro hne h h2
    match i, j with
    | 0, 0 => exact absurd rfl hne
    | 0, k + 1 => rfl
    | m + 1, 0 => rfl
    | m + 1, k + 1 =>
      exact ih m k (fun hkm => hne (by rw [hkm])) (Nat.lt_of_succ_lt_succ h) _

/-! ## A first-match characterization of `List.find?` -/

theorem find?_eq_some_split (p : Block → Bool) :
    ∀ (l : List Block) (b : Block), l.find? p = some b →
      ∃ pre post, l = pre ++ b :: post ∧ (∀ x ∈ pre, p x = false) ∧ p b = true := by
  intro l
  induction l with
  | nil => intro b h; exact absurd h (by simp)
  | cons a rest ih =>
    intro b h
    by_cases ha : p a = true
    · rw [List.find?_cons_of_pos _ ha] at h
      cases h
      exact ⟨[], rest, rfl, by simp, ha⟩
    · rw [List.find?_cons_of_neg _ ha] at h
      obtain ⟨pre, post, hl, hpre, hb⟩ := ih b h
      refine ⟨a :: pre, post, by rw [hl]; rfl, ?_, hb⟩
      intro x hx
      rcases List.mem_cons.mp hx with rfl | hx2
      · exact Bool.eq_false_iff.mpr ha
      · exact hpre x hx2

/-! ## The claims -/

/-- Claim C1: `is_chain_valid` returns true exactly when every block at a
position `i ≥ 1` satisfies I1 (its stored digest equals the recomputed
commitment of its index, timestamp, payload, predecessor link and nonce)
and I2 (its predecessor link equals the digest of the block at `i - 1`).
The right-hand side mentions neither the proof-of-work prefix of any block
nor a recomputation of the genesis block's own digest, which is how the
routine validation ignores both. -/
theorem claim_C1_validate_iff_I1_I2 (L : DocumentBlockchain) :
    isChainValid L = true ↔
      ∀ i, 1 ≤ i → ∀ (h2 : i < L.chain.length) (h3 : i - 1 < L.chain.length),
        (L.chain.get ⟨i, h2⟩).hash = (L.chain.get ⟨i, h2⟩).calculateHash ∧
        (L.chain.get ⟨i, h2⟩).previous_hash = (L.chain.get ⟨i - 1, h3⟩).hash :=
  isChainValid_iff L

/-- Claim C4: a ledger constructed fresh (genesis mined at construction)
and extended by any sequence of `add_document` calls validates after every
append — instantiating `docs` with each prefix of a call sequence gives the
intermediate states. -/
theorem claim_C4_build_valid (fuel : Nat) (now0 : String) (difficulty : Nat)
    (docs : List (String × Payload)) (L : DocumentBlockchain)
    (hb : buildLedger fuel now0 difficulty docs = some L) :
    isChainValid L = true :=
  buildLedger_valid fuel now0 difficulty docs L hb

/-- Witness for C4 at difficulty 0 with one document. -/
theorem claim_C4_build_valid_witness :
    buildLedger 0 "g" 0 [("t1", payloadDoc)] = some sampleLedger ∧
    isChainValid sampleLedger = true :=
  ⟨rfl, claim_C4_build_valid 0 "g" 0 [("t1", payloadDoc)] sampleLedger rfl⟩

/-- Claim C7: whenever the mining loop returns, the sealed block carries
`difficulty` leading `'0'` characters, satisfies I1 at its final nonce
(provided the input block satisfied I1, which every constructed block
does), and has its index, timestamp, payload and predecessor link
untouched — only the nonce and digest are mutated. -/
theorem claim_C7_mine_spec (fuel difficulty : Nat) (b b2 : Block)
    (hI1 : b.hash = b.calculateHash)
    (hm : Block.mineBlock fuel difficulty b = some b2) :
    b2.hash.take difficulty = zeroTarget difficulty ∧
    b2.hash = b2.calculateHash ∧
    b2.index = b.index ∧ b2.timestamp = b.timestamp ∧
    b2.data = b.data ∧ b2.previous_hash = b.previous_hash := by
  obtain ⟨hp, hi, ht, hd, hph, hI⟩ := mineBlock_spec fuel difficulty b b2 hm
  exact ⟨hp, hI hI1, hi, ht, hd, hph⟩

/-- Witness for C7 at difficulty 0 on the genesis block. -/
theorem claim_C7_mine_spec_witness :
    g0.hash = g0.calculateHash ∧
    Block.mineBlock 0 0 g0 = some g0 ∧
    (g0.hash.take 0 = zeroTarget 0 ∧
     g0.hash = g0.calculateHash ∧
     g0.index = g0.index ∧ g0.timestamp = g0.timestamp ∧
     g0.data = g0.data ∧ g0.previous_hash = g0.previous_hash) :=
  ⟨init_I1 0 "g" genesisData "0", rfl,
   claim_C7_mine_spec 0 0 g0 g0 (init_I1 0 "g" genesisData "0") rfl⟩

/-- Claim C10: loading a file holding an empty JSON array succeeds
(returns true) and replaces the chain with the empty sequence — no genesis
block remains — after which `get_latest_block` fails (`chain[-1]` raises
on an empty list, modelled by `none`) and therefore `add_document`, which
reads the tip's digest, fails as well: the load path never re-establishes
the non-empty-chain invariant. -/
theorem claim_C10_load_empty (L : DocumentBlockchain) (fuel : Nat)
    (now : String) (p : Payload) :
    loadFromFile (some []) L = ({ L with chain := [] }, .ok true) ∧
    getLatestBlock { L with chain := ([] : List Block) } = none ∧
    addDocument fuel now p { L with chain := ([] : List Block) } = none :=
  ⟨rfl, rfl, rfl⟩

/-- Claim C2: saving a ledger built from genesis plus appended documents
and loading it back yields a chain field-for-field identical to the
original — digests and nonces included, taken verbatim from the records
with no mining performed — and the reloaded ledger still validates. -/
theorem claim_C2_roundtrip (fuel : Nat) (now0 : String) (difficulty : Nat)
    (docs : List (String × Payload)) (L M : DocumentBlockchain)
    (hb : buildLedger fuel now0 difficulty docs = some L) :
    loadFromFile (some (saveToFile L)) M = ({ M with chain := L.chain }, .ok true) ∧
    isChainValid { M with chain := L.chain } = true := by
  refine ⟨loadFromFile_saveToFile L M, ?_⟩
  have hv := buildLedger_valid fuel now0 difficulty docs L hb
  obtain ⟨lc, ld⟩ := L
  obtain ⟨mc, md⟩ := M
  show isChainValid ⟨lc, md⟩ = true
  rw [isChainValid_difficulty lc md ld]
  exact hv

/-- Witness for C2: the one-document difficulty-0 ledger round-trips into
a target state with a different difficulty. -/
theorem claim_C2_roundtrip_witness :
    buildLedger 0 "g" 0 [("t1", payloadDoc)] = some sampleLedger ∧
    (loadFromFile (some (saveToFile sampleLedger)) ⟨[], 9⟩
        = ({ (⟨[], 9⟩ : DocumentBlockchain) with chain := sampleLedger.chain }, .ok true) ∧
     isChainValid { (⟨[], 9⟩ : DocumentBlockchain) with chain := sampleLedger.chain } = true) :=
  ⟨rfl, claim_C2_roundtrip 0 "g" 0 [("t1", payloadDoc)] sampleLedger ⟨[], 9⟩ rfl⟩

/-- Claim C3: on a validating ledger, mutating the payload of the block at
any position `i ≥ 1` in place (without resealing) makes validation fail,
provided the recomputed digest of the mutated block differs from the
stored one (the hypothesis a SHA-256 collision would be needed to defeat,
discharged by computation in the witness); and replacing that block's
predecessor link with any value other than the digest of block `i - 1`
makes validation fail unconditionally. -/
theorem claim_C3_tamper_detected (L : DocumentBlockchain) (i : Nat)
    (hv : isChainValid L = true) (h1 : 1 ≤ i)
    (h2 : i < L.chain.length) (h3 : i - 1 < L.chain.length) :
    (∀ p : Payload,
        Block.calculateHash { L.chain.get ⟨i, h2⟩ with data := p }
            ≠ (L.chain.get ⟨i, h2⟩).hash →
        isChainValid
          { L with chain := tamperAt (fun b => { b with data := p }) i L.chain }
          = false) ∧
    (∀ d : String, d ≠ (L.chain.get ⟨i - 1, h3⟩).hash →
        isChainValid
          { L with chain := tamperAt (fun b => { b with previous_hash := d }) i L.chain }
          = false) := by
  obtain ⟨c, diff⟩ := L
  constructor
  · intro p hp
    cases hval : isChainValid ⟨tamperAt (fun b => { b with data := p }) i c, diff⟩ with
    | false => rfl
    | true =>
      exfalso
      rw [isChainValid_iff] at hval
      have hlen2 : i < (tamperAt (fun b => { b with data := p }) i c).length := by
        rw [tamperAt_length]; exact h2
      have hlen3 : i - 1 < (tamperAt (fun b => { b with data := p }) i c).length := by
        rw [tamperAt_length]; exact h3
      obtain ⟨hI1, -⟩ := hval i h1 hlen2 hlen3
      rw [tamperAt_get_self (fun b => { b with data := p }) i c h2] at hI1
      rw [set_data_hash] at hI1
      exact hp hI1.symm
  · intro d hd
    cases hval : isChainValid ⟨tamperAt (fun b => { b with previous_hash := d }) i c, diff⟩ with
    | false => rfl
    | true =>
      exfalso
      rw [isChainValid_iff] at hval
      have hlen2 : i < (tamperAt (fun b => { b with previous_hash := d }) i c).length := by
        rw [tamperAt_length]; exact h2
      have hlen3 : i - 1 < (tamperAt (fun b => { b with previous_hash := d }) i c).length := by
        rw [tamperAt_length]; exact h3
      obtain ⟨-, hI2⟩ := hval i h1 hlen2 hlen3
      rw [tamperAt_get_self (fun b => { b with previous_hash := d }) i c h2] at hI2
      rw [set_prev_prev] at hI2
      rw [tamperAt_get_other (fun b => { b with previous_hash := d }) i (i - 1) c
            (by omega) h3] at hI2
      exact hd hI2

/-- Witness for C3: tampering either the payload or the predecessor link
of block 1 of the sample ledger flips validation to false. -/
theorem claim_C3_tamper_witness :
    isChainValid sampleLedger = true ∧
    isChainValid
      { sampleLedger with
        chain := tamperAt (fun b => { b with data := payloadTampered }) 1 sampleLedger.chain }
      = false ∧
    isChainValid
      { sampleLedger with
        chain := tamperAt (fun b => { b with previous_hash := "ffff" }) 1 sampleLedger.chain }
      = false := by
  have hv : isChainValid sampleLedger = true := by decide
  refine ⟨hv, ?_, ?_⟩
  · exact (claim_C3_tamper_detected sampleLedger 1 hv (by decide) (by decide)
      (by decide)).1 payloadTampered (by decide)
  · exact (claim_C3_tamper_detected sampleLedger 1 hv (by decide) (by decide)
      (by decide)).2 "ffff" (by decide)

/-- Claim C6: a successful `add_document` on a non-empty chain appends
exactly one block — index equal to the old length, timestamp from the
clock argument, the supplied payload, predecessor link equal to the tip's
digest, sealed at the configured difficulty — and returns a summary
carrying that block's index, digest and timestamp. -/
theorem claim_C6_append_spec (fuel : Nat) (now : String) (p : Payload)
    (L L2 : DocumentBlockchain) (s : AddResult) (tip : Block)
    (htip : getLatestBlock L = some tip)
    (h : addDocument fuel now p L = some (L2, s)) :
    ∃ nb : Block,
      L2 = { L with chain := L.chain ++ [nb] } ∧
      nb.index = L.chain.length ∧ nb.timestamp = now ∧ nb.data = p ∧
      nb.previous_hash = tip.hash ∧
      nb.hash = nb.calculateHash ∧
      nb.hash.take L.difficulty = zeroTarget L.difficulty ∧
      s.block_number = nb.index ∧ s.block_hash = nb.hash ∧
      s.timestamp = nb.timestamp ∧ s.success = true := by
  obtain ⟨tip2, nb, htip2, hL2, hres, hidx, hts, hdata, hph, hI1, hpre⟩ :=
    addDocument_spec fuel now p L L2 s h
  have htt : tip2 = tip := by
    rw [htip] at htip2
    exact (Option.some.inj htip2).symm
  subst htt
  exact ⟨nb, hL2, hidx, hts, hdata, hph, hI1, hpre,
    by rw [hres], by rw [hres], by rw [hres], by rw [hres]⟩

/-- Witness for C6 on the genesis-only difficulty-0 ledger. -/
theorem claim_C6_append_spec_witness :
    getLatestBlock ledger0 = some g0 ∧
    addDocument 0 "t1" payloadDoc ledger0 = some (sampleLedger, res1) ∧
    (∃ nb : Block,
      sampleLedger = { ledger0 with chain := ledger0.chain ++ [nb] } ∧
      nb.index = ledger0.chain.length ∧ nb.timestamp = "t1" ∧ nb.data = payloadDoc ∧
      nb.previous_hash = g0.hash ∧
      nb.hash = nb.calculateHash ∧
      nb.hash.take ledger0.difficulty = zeroTarget ledger0.difficulty ∧
      res1.block_number = nb.index ∧ res1.block_hash = nb.hash ∧
      res1.timestamp = nb.timestamp ∧ res1.success = true) :=
  ⟨rfl, rfl, claim_C6_append_spec 0 "t1" payloadDoc ledger0 sampleLedger res1 g0 rfl rfl⟩

/-- Claim C8: the hash commitment is a pure function of the five content
fields, and two blocks whose payloads hold the same key-value pairs — in
any insertion order, keys being distinct as in a Python dict — receive
identical digests, because the serialization sorts keys before hashing. -/
theorem claim_C8_hash_canonical (x y : Block)
    (hidx : x.index = y.index) (hts : x.timestamp = y.timestamp)
    (hph : x.previous_hash = y.previous_hash) (hn : x.nonce = y.nonce)
    (hperm : x.data.Perm y.data) (hnd : (x.data.map Prod.fst).Nodup) :
    x.calculateHash = y.calculateHash := by
  have hdump : dumpPayload x.data = dumpPayload y.data := by
    unfold dumpPayload
    rw [sortPairs_eq_of_perm x.data y.data hperm hnd]
  unfold Block.calculateHash blockString
  rw [hidx, hts, hph, hn, hdump]

/-- Witness for C8: two insertion orders of the same document payload
produce the same digest. -/
theorem claim_C8_hash_canonical_witness :
    blockPermA.data.Perm blockPermB.data ∧
    (blockPermA.data.map Prod.fst).Nodup ∧
    blockPermA.calculateHash = blockPermB.calculateHash :=
  ⟨by decide, by decide,
   claim_C8_hash_canonical blockPermA blockPermB rfl rfl rfl rfl
     (by decide) (by decide)⟩

/-- Claim C9: `verify_document` scans `chain[1:]` in chain order — the
genesis block is excluded — and returns the index, timestamp and full
payload of the first block whose payload's `document_hash` equals the
argument (every earlier scanned block does not match); when no block
matches it returns the explicit absent value `None` rather than an error.
The function takes the ledger as a plain value and returns only the
optional record, so the chain is unchanged by construction. -/
theorem claim_C9_lookup_spec (document_hash : String) (L : DocumentBlockchain) :
    (∀ r : VerifyResult, verifyDocument document_hash L = some r →
      ∃ pre b post, L.chain.drop 1 = pre ++ b :: post ∧
        (∀ x ∈ pre, matchesDocHash document_hash x = false) ∧
        matchesDocHash document_hash b = true ∧
        r = ⟨true, b.index, b.timestamp, b.data⟩) ∧
    (verifyDocument document_hash L = none ↔
      ∀ b ∈ L.chain.drop 1, matchesDocHash document_hash b = false) := by
  constructor
  · intro r hr
    unfold verifyDocument at hr
    obtain ⟨b, hfind, hmap⟩ := Option.map_eq_some'.mp hr
    obtain ⟨pre, post, hsplit, hpre, hb⟩ :=
      find?_eq_some_split (matchesDocHash document_hash) (L.chain.drop 1) b hfind
    exact ⟨pre, b, post, hsplit, hpre, hb, hmap.symm⟩
  · unfold verifyDocument
    rw [Option.map_eq_none', List.find?_eq_none]
    simp only [Bool.not_eq_true]

/-- Claim C5 counterexample: a file whose two records have a non-monotonic
index sequence (0 then 5) and digests that are not hex at all loads
without any error — `load_from_file` reports success and installs both
records — so load does not fail with a distinct error on such corrupt
content. -/
theorem claim_C5_counterexample :
    (loadFromFile (some [recordA, recordB]) ⟨[], 2⟩).2 = Except.ok true ∧
    (loadFromFile (some [recordA, recordB]) ⟨[], 2⟩).1.chain.length = 2 :=
  ⟨rfl, rfl⟩

/-- Claim C5 (amended): reconstruction raises a distinct uncaught error
(`KeyError`) only when a record lacks one of the six required fields; a
file whose records all carry the six fields loads successfully with no
validation of digests or index monotonicity; and when a record does fail,
the chain is left holding exactly the blocks reconstructed from the
records before it — a partial reconstruction. -/
theorem claim_C5_load_behavior (records : List BlockRecord) (L : DocumentBlockchain) :
    ((∀ r ∈ records, (parseRecord r).isOk = true) →
      loadFromFile (some records) L =
        ({ L with chain := records.filterMap fun r => (parseRecord r).toOption },
         .ok true)) ∧
    (∀ (pre : List BlockRecord) (r : BlockRecord) (post : List BlockRecord)
        (e : LoadError),
      records = pre ++ r :: post →
      (∀ x ∈ pre, (parseRecord x).isOk = true) → parseRecord r = .error e →
      loadFromFile (some records) L =
        ({ L with chain := pre.filterMap fun x => (parseRecord x).toOption },
         .error e)) := by
  constructor
  · intro hall
    show loadLoop L records [] = _
    rw [loadLoop_all_ok L records [] hall]
    simp
  · intro pre r post e hrec hall hr
    subst hrec
    show loadLoop L (pre ++ r :: post) [] = _
    rw [loadLoop_first_error L pre [] r post e hall hr]
    simp

/-- Witness for the amended C5: a complete record loads fine (regardless
of its non-hex digest), and a missing `nonce` raises `KeyError("nonce")`
leaving the first block installed. -/
theorem claim_C5_load_behavior_witness :
    loadFromFile (some [recordA]) ⟨[], 2⟩ =
      ({ (⟨[], 2⟩ : DocumentBlockchain) with
          chain := [recordA].filterMap fun r => (parseRecord r).toOption }, .ok true) ∧
    loadFromFile (some [recordA, recordNoNonce]) ⟨[], 2⟩ =
      ({ (⟨[], 2⟩ : DocumentBlockchain) with
          chain := [recordA].filterMap fun r => (parseRecord r).toOption },
       .error (.keyError "nonce")) :=
  ⟨(claim_C5_load_behavior [recordA] ⟨[], 2⟩).1 (by decide),
   (claim_C5_load_behavior [recordA, recordNoNonce] ⟨[], 2⟩).2
     [recordA] recordNoNonce [] (.keyError "nonce") rfl (by decide) rfl⟩

end DocuChain
